import Mathlib

/-!
Verification of the BANE (Binarized Attributed Network Embedding) optimizer.

The development shallowly embeds the numerical core of `src/bane.py` and the
matrix-powering / feature-reading helpers of `src/utils.py` over the rationals:
matrices are `Matrix (Fin n) (Fin d) ℚ`, `np.sign` becomes `npSign`, the
`numpy.linalg.inv` call becomes the adjugate-based field inverse `matInv`,
and the mutable object state of the `BANE` class becomes the record
`BaneState` threaded through explicit update functions.
-/

namespace BaneModel

open Matrix

/-- Sign function of numpy: `np.sign` maps positives to 1, negatives to -1,
and exactly zero to 0. -/
def npSign (x : ℚ) : ℚ :=
  if 0 < x then 1 else if x < 0 then -1 else 0

/-- Entrywise sign of a matrix, as in `np.sign(np.random.normal(...))`:
the Gaussian draw is modelled as an arbitrary input matrix `R`. -/
def signMatrix {n d : ℕ} (R : Matrix (Fin n) (Fin d) ℚ) : Matrix (Fin n) (Fin d) ℚ :=
  R.map npSign

/-- Matrix inverse as computed by `numpy.linalg.inv`, embedded as the
adjugate formula over the field ℚ (equal to Mathlib's `A⁻¹` over a field). -/
def matInv {d : ℕ} (A : Matrix (Fin d) (Fin d) ℚ) : Matrix (Fin d) (Fin d) ℚ :=
  (A.det)⁻¹ • A.adjugate

/-- The matrix `Bᵀ·B + α·I` formed by the first two statements of
`BANE.update_G` (`G = B.T.dot(B)` then `G = G + alpha*np.eye(d)`). -/
def regularizedGram {n d : ℕ} (B : Matrix (Fin n) (Fin d) ℚ) (α : ℚ) :
    Matrix (Fin d) (Fin d) ℚ :=
  Bᵀ * B + α • (1 : Matrix (Fin d) (Fin d) ℚ)

/-- `BANE.update_G`: `G = inv(BᵀB + α·I)`, then `G = G.dot(BᵀB).dot(P)`
stepwise as in the source, i.e. `(inv(BᵀB + α·I) · Bᵀ) · P`. -/
def updateG {n d : ℕ} (B P : Matrix (Fin n) (Fin d) ℚ) (α : ℚ) :
    Matrix (Fin d) (Fin d) ℚ :=
  (matInv (regularizedGram B α) * Bᵀ) * P

/-- `BANE.update_Q`: `Q = G.dot(P.transpose()).transpose()`. -/
def updateQ {n d : ℕ} (G : Matrix (Fin d) (Fin d) ℚ) (P : Matrix (Fin n) (Fin d) ℚ) :
    Matrix (Fin n) (Fin d) ℚ :=
  (G * Pᵀ)ᵀ

/-- Residual of one coordinate-descent column update of `BANE.update_B`:
`Q[:, dim] - B[:, sel].dot(G[sel, :]).dot(G[:, dim])` at row `i`, where
`sel` is every dimension index except `dim`. -/
def residual {n d : ℕ} (G : Matrix (Fin d) (Fin d) ℚ) (Q B : Matrix (Fin n) (Fin d) ℚ)
    (dim : Fin d) (i : Fin n) : ℚ :=
  Q i dim - ∑ k, (∑ j ∈ Finset.univ.erase dim, B i j * G j k) * G k dim

/-- One column update of `BANE.update_B`: first `B[:, dim]` is assigned the
residual, then `B[:, dim] = np.sign(B[:, dim])`, exactly the two in-place
assignments of the source. -/
def updateColumnStep {n d : ℕ} (G : Matrix (Fin d) (Fin d) ℚ)
    (Q B : Matrix (Fin n) (Fin d) ℚ) (dim : Fin d) : Matrix (Fin n) (Fin d) ℚ :=
  let B1 := B.updateColumn dim (fun i => residual G Q B dim i)
  B1.updateColumn dim (fun i => npSign (B1 i dim))

/-- One inner sweep of `BANE.update_B`: the dimensions `0, 1, …, d-1` are
visited in increasing order, each column update acting on the matrix left by
the previous one (in-place cyclic coordinate descent). -/
def sweep {n d : ℕ} (G : Matrix (Fin d) (Fin d) ℚ) (Q B : Matrix (Fin n) (Fin d) ℚ) :
    Matrix (Fin n) (Fin d) ℚ :=
  (List.finRange d).foldl (updateColumnStep G Q) B

/-- The state of the sweep after only the first `k` dimensions have been
processed, written as an explicit recursion (the whole sweep agrees with
`sweepUpTo … d`, proved below). -/
def sweepUpTo {n d : ℕ} (G : Matrix (Fin d) (Fin d) ℚ) (Q B : Matrix (Fin n) (Fin d) ℚ) :
    ℕ → Matrix (Fin n) (Fin d) ℚ
  | 0 => B
  | k + 1 =>
    if hk : k < d then updateColumnStep G Q (sweepUpTo G Q B k) ⟨k, hk⟩
    else sweepUpTo G Q B k

/-- A simultaneous (Jacobi-style) sweep, modelled from the spec's contrast:
every column's residual is computed from the pre-sweep matrix `B`.  The
source does NOT compute this; it is only used to separate the two updates. -/
def jacobiSweep {n d : ℕ} (G : Matrix (Fin d) (Fin d) ℚ) (Q B : Matrix (Fin n) (Fin d) ℚ) :
    Matrix (Fin n) (Fin d) ℚ :=
  Matrix.of fun i dim => npSign (residual G Q B dim i)

/-- `BANE.update_B`: `approximation_rounds` inner sweeps, each one acting on
the matrix left by the previous one. -/
def updateB {n d : ℕ} (G : Matrix (Fin d) (Fin d) ℚ) (Q : Matrix (Fin n) (Fin d) ℚ) :
    ℕ → Matrix (Fin n) (Fin d) ℚ → Matrix (Fin n) (Fin d) ℚ
  | 0, B => B
  | a + 1, B => updateB G Q a (sweep G Q B)

/-- The mutable matrix fields of the `BANE` object during `binary_optimize`. -/
structure BaneState (n d : ℕ) where
  P : Matrix (Fin n) (Fin d) ℚ
  B : Matrix (Fin n) (Fin d) ℚ
  G : Matrix (Fin d) (Fin d) ℚ
  Q : Matrix (Fin n) (Fin d) ℚ

/-- `self.update_G()`: overwrites the `G` field from `B`, `P` and `α`. -/
def updateGState {n d : ℕ} (α : ℚ) (s : BaneState n d) : BaneState n d :=
  { s with G := updateG s.B s.P α }

/-- `self.update_Q()`: overwrites the `Q` field from `G` and `P`. -/
def updateQState {n d : ℕ} (s : BaneState n d) : BaneState n d :=
  { s with Q := updateQ s.G s.P }

/-- `self.update_B()`: overwrites the `B` field by `approximation_rounds`
sweeps of cyclic coordinate descent. -/
def updateBState {n d : ℕ} (a : ℕ) (s : BaneState n d) : BaneState n d :=
  { s with B := updateB s.G s.Q a s.B }

/-- One binarization round: `update_G`, then `update_Q`, then `update_B`. -/
def roundStep {n d : ℕ} (α : ℚ) (a : ℕ) (s : BaneState n d) : BaneState n d :=
  updateBState a (updateQState (updateGState α s))

/-- The round loop of `BANE.binary_optimize`, run `r` times. -/
def optimizeLoop {n d : ℕ} (α : ℚ) (a : ℕ) : ℕ → BaneState n d → BaneState n d
  | 0, s => s
  | r + 1, s => optimizeLoop α a r (roundStep α a s)

/-- `BANE.binary_optimize`: `B` is initialized to the entrywise sign of the
Gaussian draw `R`, then `binarization_rounds` rounds are run. -/
def binaryOptimize {n d : ℕ} (α : ℚ) (r a : ℕ) (R : Matrix (Fin n) (Fin d) ℚ)
    (s : BaneState n d) : BaneState n d :=
  optimizeLoop α a r { s with B := signMatrix R }

/-- The predicate the amended binary invariant asserts: every entry of the
matrix is 1, -1, or 0 (the three values `np.sign` can produce). -/
def inSignRange {n d : ℕ} (B : Matrix (Fin n) (Fin d) ℚ) : Prop :=
  ∀ i j, B i j = 1 ∨ B i j = -1 ∨ B i j = 0

/-- Operations observable during `binary_optimize`: a call of `update_G`, a
call of `update_Q`, and one inner coordinate-descent sweep of `update_B`. -/
inductive BaneOp : Type
  | estG : BaneOp
  | rescQ : BaneOp
  | ccdSweep : BaneOp
  deriving DecidableEq

/-- `update_B` instrumented with the list of inner sweeps it performs. -/
def updateBTrace {n d : ℕ} (G : Matrix (Fin d) (Fin d) ℚ) (Q : Matrix (Fin n) (Fin d) ℚ) :
    ℕ → Matrix (Fin n) (Fin d) ℚ → Matrix (Fin n) (Fin d) ℚ × List BaneOp
  | 0, B => (B, [])
  | a + 1, B =>
    let t := updateBTrace G Q a (sweep G Q B)
    (t.1, BaneOp.ccdSweep :: t.2)

/-- One binarization round instrumented with its operation trace. -/
def roundTrace {n d : ℕ} (α : ℚ) (a : ℕ) (s : BaneState n d) :
    BaneState n d × List BaneOp :=
  let s2 := updateQState (updateGState α s)
  let t := updateBTrace s2.G s2.Q a s2.B
  ({ s2 with B := t.1 }, BaneOp.estG :: BaneOp.rescQ :: t.2)

/-- The round loop instrumented with its operation trace. -/
def loopTrace {n d : ℕ} (α : ℚ) (a : ℕ) : ℕ → BaneState n d → BaneState n d × List BaneOp
  | 0, s => (s, [])
  | r + 1, s =>
    let t1 := roundTrace α a s
    let t2 := loopTrace α a r t1.1
    (t2.1, t1.2 ++ t2.2)

/-- `binary_optimize` instrumented with its operation trace. -/
def binaryOptimizeTrace {n d : ℕ} (α : ℚ) (r a : ℕ) (R : Matrix (Fin n) (Fin d) ℚ)
    (s : BaneState n d) : BaneState n d × List BaneOp :=
  loopTrace α a r { s with B := signMatrix R }

/-- The powering loop of `read_graph`: `powered_P = P`, then `order - 1` times
`powered_P = powered_P.dot(P)`, instrumented with the number of matrix
multiplications performed. -/
def powerLoop {m : ℕ} (P : Matrix (Fin m) (Fin m) ℚ) :
    ℕ → Matrix (Fin m) (Fin m) ℚ × ℕ
  | 0 => (P, 0)
  | k + 1 =>
    let t := powerLoop P k
    (t.1 * P, t.2 + 1)

/-- The matrix-powering step of `read_graph`: the loop body runs only when
`order > 1`, and it multiplies `order - 1` times. -/
def readGraphPower {m : ℕ} (P : Matrix (Fin m) (Fin m) ℚ) (order : ℕ) :
    Matrix (Fin m) (Fin m) ℚ × ℕ :=
  if 1 < order then powerLoop P (order - 1) else (P, 0)

/-- The array built by `save_embedding`:
`np.concatenate([np.array(range(n)).reshape(-1, 1), B], axis=1)` — column 0
holds the row index (as a number, since the array is homogeneous), columns
1 … d hold the columns of `B`. -/
def outMatrix {n d : ℕ} (B : Matrix (Fin n) (Fin d) ℚ) : Matrix (Fin n) (Fin (d + 1)) ℚ :=
  Matrix.of fun i j => Fin.cases ((i : ℕ) : ℚ) (fun j' => B i j') j

/-- The header written by `save_embedding`: `["id"] + ["x_" + str(k) for k in range(d)]`. -/
def outHeader (d : ℕ) : List String :=
  "id" :: (List.range d).map (fun k => "x_" ++ toString k)

/-- The data rows written by `save_embedding`, in row order, with no index
column beyond the `id` column (`to_csv(..., index=None)`). -/
def outRows {n d : ℕ} (B : Matrix (Fin n) (Fin d) ℚ) : List (List ℚ) :=
  (List.finRange n).map (fun i => (List.finRange (d + 1)).map (fun j => outMatrix B i j))

/-- Entry `(i, j)` of the sparse feature matrix built by
`read_sparse_features`: the COO triples `(k, fet, 1.0)` are summed per
coordinate when the matrix is converted to CSR, so the entry is the number of
times attribute `j` is listed for node `i`. -/
def featEntry (fl : List (ℕ × List ℕ)) (i j : ℕ) : ℚ :=
  (fl.map (fun p => if p.1 = i then ((p.2.count j : ℕ) : ℚ) else 0)).sum

/-- `node_count = max(nodes) + 1` of `read_sparse_features` (defined when the
key list is nonempty, as `max` of an empty sequence raises in the source). -/
def nodeCount (fl : List (ℕ × List ℕ)) : ℕ :=
  (fl.map Prod.fst).foldr max 0 + 1

/-- `feature_count = max(index_2) + 1` of `read_sparse_features` (defined when
some attribute is listed, as `max` of an empty sequence raises in the source). -/
def featureCount (fl : List (ℕ × List ℕ)) : ℕ :=
  ((fl.map Prod.snd).flatten.foldr max 0) + 1

/-- Attribute `j` is listed for node `i` in the feature file. -/
def hasFeature (fl : List (ℕ × List ℕ)) (i j : ℕ) : Prop :=
  ∃ p ∈ fl, p.1 = i ∧ j ∈ p.2

instance (fl : List (ℕ × List ℕ)) (i j : ℕ) : Decidable (hasFeature fl i j) := by
  unfold hasFeature
  infer_instance

/-- Concrete propagator for the C8 witness. -/
def powP : Matrix (Fin 1) (Fin 1) ℚ := fun _ _ => 2

/-- Concrete sparse feature file for the C10 witness: node 0 has attribute 1,
node 2 has attribute 0, node 1 is absent. -/
def featFl : List (ℕ × List ℕ) := [(0, [1]), (2, [0])]

/-- Continuous target of the C1 counterexample run: the zero matrix. -/
def cexP : Matrix (Fin 1) (Fin 1) ℚ := 0

/-- Gaussian draw of the C1 counterexample run. -/
def cexR : Matrix (Fin 1) (Fin 1) ℚ := fun _ _ => 1

/-- Initial object state of the C1 counterexample run. -/
def cexS : BaneState 1 1 := ⟨cexP, 0, 0, 0⟩

/-- Kernel matrix separating the cyclic sweep from a Jacobi sweep. -/
def cexG2 : Matrix (Fin 2) (Fin 2) ℚ := !![1, 1; 1, 1]

/-- Rescaled target separating the cyclic sweep from a Jacobi sweep. -/
def cexQ2 : Matrix (Fin 1) (Fin 2) ℚ := !![-3, 0]

/-- Embedding matrix separating the cyclic sweep from a Jacobi sweep. -/
def cexB2 : Matrix (Fin 1) (Fin 2) ℚ := !![1, 1]

/-- First of two states agreeing on `P` and `B` but not on `G`, `Q`. -/
def frameS1 : BaneState 1 1 := ⟨0, 0, fun _ _ => 5, fun _ _ => 7⟩

/-- Second of two states agreeing on `P` and `B` but not on `G`, `Q`. -/
def frameS2 : BaneState 1 1 := ⟨0, 0, 0, 0⟩

/-- C3: update_G computes the closed-form ridge-regression solution
`(BᵀB + α·I)⁻¹ · Bᵀ · P`. -/
theorem bane_C3_updateG_ridge {n d : ℕ} (B P : Matrix (Fin n) (Fin d) ℚ) (α : ℚ) :
    updateG B P α =
      (Bᵀ * B + α • (1 : Matrix (Fin d) (Fin d) ℚ))⁻¹ * (Bᵀ * P) := by
  unfold updateG matInv
  rw [Matrix.mul_assoc]
  congr 1
  rw [Matrix.inv_def, Ring.inverse_eq_inv]
  rfl

/-- C4: update_Q computes `(G · Pᵀ)ᵀ`, which equals `P · Gᵀ`. -/
theorem bane_C4_updateQ_transpose {n d : ℕ} (G : Matrix (Fin d) (Fin d) ℚ)
    (P : Matrix (Fin n) (Fin d) ℚ) :
    updateQ G P = P * Gᵀ := by
  unfold updateQ
  rw [Matrix.transpose_mul, Matrix.transpose_transpose]

theorem npSign_cases (x : ℚ) : npSign x = 1 ∨ npSign x = -1 ∨ npSign x = 0 := by
  unfold npSign
  split
  · exact Or.inl rfl
  · split
    · exact Or.inr (Or.inl rfl)
    · exact Or.inr (Or.inr rfl)

theorem updateColumnStep_apply_self {n d : ℕ} (G : Matrix (Fin d) (Fin d) ℚ)
    (Q B : Matrix (Fin n) (Fin d) ℚ) (dim : Fin d) (i : Fin n) :
    updateColumnStep G Q B dim i dim = npSign (residual G Q B dim i) := by
  unfold updateColumnStep
  simp [Matrix.updateColumn_self]

theorem updateColumnStep_apply_ne {n d : ℕ} (G : Matrix (Fin d) (Fin d) ℚ)
    (Q B : Matrix (Fin n) (Fin d) ℚ) (dim : Fin d) {j : Fin d} (h : j ≠ dim) (i : Fin n) :
    updateColumnStep G Q B dim i j = B i j := by
  unfold updateColumnStep
  simp [Matrix.updateColumn_ne h]

theorem inSignRange_updateColumnStep {n d : ℕ} {G : Matrix (Fin d) (Fin d) ℚ}
    {Q B : Matrix (Fin n) (Fin d) ℚ} {dim : Fin d} (h : inSignRange B) :
    inSignRange (updateColumnStep G Q B dim) := by
  intro i j
  by_cases hj : j = dim
  · subst hj
    rw [updateColumnStep_apply_self]
    exact npSign_cases _
  · rw [updateColumnStep_apply_ne _ _ _ _ hj]
    exact h i j

theorem inSignRange_sweepUpTo {n d : ℕ} {G : Matrix (Fin d) (Fin d) ℚ}
    {Q B : Matrix (Fin n) (Fin d) ℚ} (h : inSignRange B) :
    ∀ k, inSignRange (sweepUpTo G Q B k) := by
  intro k
  induction k with
  | zero => exact h
  | succ k ih =>
    unfold sweepUpTo
    split
    · exact inSignRange_updateColumnStep ih
    · exact ih

theorem foldl_take_finRange {n d : ℕ} (G : Matrix (Fin d) (Fin d) ℚ)
    (Q B : Matrix (Fin n) (Fin d) ℚ) :
    ∀ k, k ≤ d → ((List.finRange d).take k).foldl (updateColumnStep G Q) B
      = sweepUpTo G Q B k := by
  intro k
  induction k with
  | zero => intro _; rfl
  | succ k ih =>
    intro hk
    have hk' : k < d := hk
    have hlen : k < (List.finRange d).length := by simp [hk']
    rw [List.take_succ, List.getElem?_eq_getElem hlen, Option.toList_some,
      List.foldl_append, ih (le_of_lt hk')]
    have hstep : sweepUpTo G Q B (k + 1)
        = updateColumnStep G Q (sweepUpTo G Q B k) ⟨k, hk'⟩ := by
      conv_lhs => rw [sweepUpTo]
      rw [dif_pos hk']
    rw [hstep]
    show updateColumnStep G Q (sweepUpTo G Q B k) _ = _
    have hx : (List.finRange d)[k] = (⟨k, hk'⟩ : Fin d) := by
      apply Fin.ext
      simp [List.getElem_finRange]
    rw [hx]

theorem sweep_eq_sweepUpTo {n d : ℕ} (G : Matrix (Fin d) (Fin d) ℚ)
    (Q B : Matrix (Fin n) (Fin d) ℚ) :
    sweep G Q B = sweepUpTo G Q B d := by
  have h1 : (List.finRange d).take d = List.finRange d :=
    List.take_of_length_le (by simp)
  unfold sweep
  rw [← h1, foldl_take_finRange G Q B d le_rfl]

theorem inSignRange_sweep {n d : ℕ} {G : Matrix (Fin d) (Fin d) ℚ}
    {Q B : Matrix (Fin n) (Fin d) ℚ} (h : inSignRange B) :
    inSignRange (sweep G Q B) := by
  rw [sweep_eq_sweepUpTo]
  exact inSignRange_sweepUpTo h d

theorem inSignRange_updateB {n d : ℕ} {G : Matrix (Fin d) (Fin d) ℚ}
    {Q : Matrix (Fin n) (Fin d) ℚ} :
    ∀ (a : ℕ) (B : Matrix (Fin n) (Fin d) ℚ), inSignRange B →
      inSignRange (updateB G Q a B)
  | 0, _, h => h
  | a + 1, B, h => inSignRange_updateB a (sweep G Q B) (inSignRange_sweep h)

theorem roundStep_B_eq {n d : ℕ} (α : ℚ) (a : ℕ) (s : BaneState n d) :
    (roundStep α a s).B =
      updateB (updateG s.B s.P α) (updateQ (updateG s.B s.P α) s.P) a s.B := rfl

theorem inSignRange_optimizeLoop {n d : ℕ} (α : ℚ) (a : ℕ) :
    ∀ (r : ℕ) (s : BaneState n d), inSignRange s.B →
      inSignRange ((optimizeLoop α a r s).B)
  | 0, _, h => h
  | r + 1, s, h =>
    inSignRange_optimizeLoop α a r (roundStep α a s)
      (by rw [roundStep_B_eq]; exact inSignRange_updateB a s.B h)

/-- C1 (amended): after the initialization of `B` and after every
coordinate-descent column update, every entry of `B` is in {-1, +1, 0} —
`np.sign` maps exactly-zero inputs to 0, so 0 is a reachable value and the
set {-1, +1} of the original claim must be widened to {-1, +1, 0}. -/
theorem bane_C1_sign_range {n d : ℕ} (α : ℚ) (r a : ℕ) (R : Matrix (Fin n) (Fin d) ℚ)
    (s : BaneState n d) :
    inSignRange (signMatrix R)
    ∧ (∀ (G : Matrix (Fin d) (Fin d) ℚ) (Q B : Matrix (Fin n) (Fin d) ℚ) (dim : Fin d),
        inSignRange B → inSignRange (updateColumnStep G Q B dim))
    ∧ inSignRange ((binaryOptimize α r a R s).B) := by
  refine ⟨fun i j => npSign_cases _, fun G Q B dim h => inSignRange_updateColumnStep h, ?_⟩
  exact inSignRange_optimizeLoop α a r _ (fun i j => npSign_cases _)

/-- Witness for C1: the invariant instantiated on a concrete 1×1 run. -/
theorem bane_C1_sign_range_witness :
    inSignRange (signMatrix cexR)
    ∧ inSignRange (updateColumnStep 0 0 (signMatrix cexR) 0)
    ∧ inSignRange ((binaryOptimize 1 1 1 cexR cexS).B) :=
  ⟨(bane_C1_sign_range 1 1 1 cexR cexS).1,
   (bane_C1_sign_range 1 1 1 cexR cexS).2.1 0 0 (signMatrix cexR) 0
     (bane_C1_sign_range 1 1 1 cexR cexS).1,
   (bane_C1_sign_range 1 1 1 cexR cexS).2.2⟩

theorem updateG_zero {n d : ℕ} (B : Matrix (Fin n) (Fin d) ℚ) (α : ℚ) :
    updateG B 0 α = 0 := by
  unfold updateG
  exact Matrix.mul_zero _

theorem updateQ_zero {n d : ℕ} (P : Matrix (Fin n) (Fin d) ℚ) :
    updateQ (0 : Matrix (Fin d) (Fin d) ℚ) P = 0 := by
  unfold updateQ
  rw [Matrix.zero_mul, Matrix.transpose_zero]

theorem residual_zero {n d : ℕ} (B : Matrix (Fin n) (Fin d) ℚ) (dim : Fin d) (i : Fin n) :
    residual (0 : Matrix (Fin d) (Fin d) ℚ) 0 B dim i = 0 := by
  unfold residual
  simp

/-- C1 (counterexample to the original claim): on the 1×1 run with continuous
target `P = 0`, one binarization round with one inner sweep leaves the entry
`B[0,0] = 0`, which is in neither {-1} nor {+1}: the zero residual is mapped
by `np.sign` to 0. -/
theorem bane_C1_zero_entry_counterexample :
    (binaryOptimize 1 1 1 cexR cexS).B 0 0 = 0
    ∧ (binaryOptimize 1 1 1 cexR cexS).B 0 0 ≠ 1
    ∧ (binaryOptimize 1 1 1 cexR cexS).B 0 0 ≠ -1 := by
  have hB : (binaryOptimize 1 1 1 cexR cexS).B 0 0 = 0 := by
    show (roundStep 1 1 { cexS with B := signMatrix cexR }).B 0 0 = 0
    rw [roundStep_B_eq]
    show updateB (updateG (signMatrix cexR) cexP 1)
      (updateQ (updateG (signMatrix cexR) cexP 1) cexP) 1 (signMatrix cexR) 0 0 = 0
    rw [show (cexP : Matrix (Fin 1) (Fin 1) ℚ) = 0 from rfl, updateG_zero, updateQ_zero]
    show sweep 0 0 (signMatrix cexR) 0 0 = 0
    rw [sweep_eq_sweepUpTo]
    show updateColumnStep 0 0 (sweepUpTo 0 0 (signMatrix cexR) 0) ⟨0, one_pos⟩ 0 0 = 0
    rw [show (0 : Fin 1) = (⟨0, one_pos⟩ : Fin 1) from rfl, updateColumnStep_apply_self,
      residual_zero]
    norm_num [npSign]
  refine ⟨hB, ?_, ?_⟩ <;> rw [hB] <;> norm_num

theorem sweepUpTo_succ_of_lt {n d : ℕ} (G : Matrix (Fin d) (Fin d) ℚ)
    (Q B : Matrix (Fin n) (Fin d) ℚ) {k : ℕ} (hk : k < d) :
    sweepUpTo G Q B (k + 1) = updateColumnStep G Q (sweepUpTo G Q B k) ⟨k, hk⟩ := by
  conv_lhs => rw [sweepUpTo]
  rw [dif_pos hk]

theorem sweepUpTo_succ_of_not_lt {n d : ℕ} (G : Matrix (Fin d) (Fin d) ℚ)
    (Q B : Matrix (Fin n) (Fin d) ℚ) {k : ℕ} (hk : ¬ k < d) :
    sweepUpTo G Q B (k + 1) = sweepUpTo G Q B k := by
  conv_lhs => rw [sweepUpTo]
  rw [dif_neg hk]

theorem sweepUpTo_apply_of_le {n d : ℕ} (G : Matrix (Fin d) (Fin d) ℚ)
    (Q B : Matrix (Fin n) (Fin d) ℚ) :
    ∀ (k : ℕ) (j : Fin d) (i : Fin n), k ≤ (j : ℕ) → sweepUpTo G Q B k i j = B i j := by
  intro k
  induction k with
  | zero => intro j i _; rfl
  | succ k ih =>
    intro j i h
    by_cases hk : k < d
    · have hne : j ≠ (⟨k, hk⟩ : Fin d) := by
        intro heq
        rw [heq] at h
        exact Nat.not_succ_le_self k h
      rw [sweepUpTo_succ_of_lt G Q B hk, updateColumnStep_apply_ne _ _ _ _ hne]
      exact ih j i (Nat.le_of_succ_le h)
    · rw [sweepUpTo_succ_of_not_lt G Q B hk]
      exact ih j i (Nat.le_of_succ_le h)

theorem sweep_cex_entry : sweep cexG2 cexQ2 cexB2 0 1 = 1 := by
  have h1 : sweepUpTo cexG2 cexQ2 cexB2 2
      = updateColumnStep cexG2 cexQ2 (sweepUpTo cexG2 cexQ2 cexB2 1) 1 :=
    sweepUpTo_succ_of_lt _ _ _ (by norm_num)
  have h0 : sweepUpTo cexG2 cexQ2 cexB2 1 = updateColumnStep cexG2 cexQ2 cexB2 0 :=
    sweepUpTo_succ_of_lt _ _ _ (by norm_num)
  rw [sweep_eq_sweepUpTo, h1, h0, updateColumnStep_apply_self]
  simp only [residual, Finset.sum_erase_eq_sub (Finset.mem_univ _), Fin.sum_univ_two]
  simp only [updateColumnStep_apply_self,
    updateColumnStep_apply_ne cexG2 cexQ2 cexB2 0 (show (1 : Fin 2) ≠ 0 by decide)]
  simp only [residual, Finset.sum_erase_eq_sub (Finset.mem_univ _), Fin.sum_univ_two]
  norm_num [cexG2, cexQ2, cexB2, npSign]

theorem jacobi_cex_entry : jacobiSweep cexG2 cexQ2 cexB2 0 1 = -1 := by
  show npSign (residual cexG2 cexQ2 cexB2 1 0) = -1
  simp only [residual, Finset.sum_erase_eq_sub (Finset.mem_univ _), Fin.sum_univ_two]
  norm_num [cexG2, cexQ2, cexB2, npSign]

/-- C2: in every inner sweep of update_B the dimensions are visited in
increasing index order; after the first `k` columns were processed the
higher-indexed columns still hold their pre-sweep values; the `k`-th column
update writes the sign of `Q[:, k] − B[:, sel]·G[sel, :]·G[:, k]` computed
from the matrix whose lower-indexed columns were already updated in the same
sweep; and the in-place cyclic sweep differs from a simultaneous Jacobi
update on a concrete input. -/
theorem bane_C2_inplace_cyclic {n d : ℕ} (G : Matrix (Fin d) (Fin d) ℚ)
    (Q B : Matrix (Fin n) (Fin d) ℚ) :
    sweep G Q B = sweepUpTo G Q B d
    ∧ (∀ (k : ℕ) (hk : k < d),
        sweepUpTo G Q B (k + 1) = updateColumnStep G Q (sweepUpTo G Q B k) ⟨k, hk⟩)
    ∧ (∀ (k : ℕ) (j : Fin d) (i : Fin n), k ≤ (j : ℕ) → sweepUpTo G Q B k i j = B i j)
    ∧ (∀ (k : ℕ) (hk : k < d) (i : Fin n),
        sweepUpTo G Q B (k + 1) i ⟨k, hk⟩
          = npSign (residual G Q (sweepUpTo G Q B k) ⟨k, hk⟩ i))
    ∧ sweep cexG2 cexQ2 cexB2 ≠ jacobiSweep cexG2 cexQ2 cexB2 := by
  refine ⟨sweep_eq_sweepUpTo G Q B, fun k hk => sweepUpTo_succ_of_lt G Q B hk,
    sweepUpTo_apply_of_le G Q B, fun k hk i => ?_, fun hcontra => ?_⟩
  · rw [sweepUpTo_succ_of_lt G Q B hk, updateColumnStep_apply_self]
  · have h01 := congrFun (congrFun hcontra 0) 1
    rw [sweep_cex_entry, jacobi_cex_entry] at h01
    norm_num at h01

/-- Witness for C2: the sequencing properties instantiated on the concrete
2-dimensional input. -/
theorem bane_C2_inplace_cyclic_witness :
    sweepUpTo cexG2 cexQ2 cexB2 2
        = updateColumnStep cexG2 cexQ2 (sweepUpTo cexG2 cexQ2 cexB2 1) ⟨1, by norm_num⟩
    ∧ sweepUpTo cexG2 cexQ2 cexB2 1 0 1 = cexB2 0 1
    ∧ sweepUpTo cexG2 cexQ2 cexB2 1 0 ⟨0, by norm_num⟩
        = npSign (residual cexG2 cexQ2 (sweepUpTo cexG2 cexQ2 cexB2 0) ⟨0, by norm_num⟩ 0) :=
  ⟨(bane_C2_inplace_cyclic cexG2 cexQ2 cexB2).2.1 1 (by norm_num),
   (bane_C2_inplace_cyclic cexG2 cexQ2 cexB2).2.2.1 1 1 0 (by decide),
   (bane_C2_inplace_cyclic cexG2 cexQ2 cexB2).2.2.2.1 0 (by norm_num) 0⟩

theorem updateBTrace_fst {n d : ℕ} (G : Matrix (Fin d) (Fin d) ℚ)
    (Q : Matrix (Fin n) (Fin d) ℚ) :
    ∀ (a : ℕ) (B : Matrix (Fin n) (Fin d) ℚ),
      (updateBTrace G Q a B).1 = updateB G Q a B
  | 0, _ => rfl
  | a + 1, B => updateBTrace_fst G Q a (sweep G Q B)

theorem updateBTrace_snd {n d : ℕ} (G : Matrix (Fin d) (Fin d) ℚ)
    (Q : Matrix (Fin n) (Fin d) ℚ) :
    ∀ (a : ℕ) (B : Matrix (Fin n) (Fin d) ℚ),
      (updateBTrace G Q a B).2 = List.replicate a BaneOp.ccdSweep
  | 0, _ => rfl
  | a + 1, B => by
    show BaneOp.ccdSweep :: (updateBTrace G Q a (sweep G Q B)).2 = _
    rw [updateBTrace_snd G Q a (sweep G Q B)]
    rfl

theorem roundTrace_fst {n d : ℕ} (α : ℚ) (a : ℕ) (s : BaneState n d) :
    (roundTrace α a s).1 = roundStep α a s := by
  unfold roundTrace roundStep updateBState
  simp only [updateBTrace_fst]

theorem roundTrace_snd {n d : ℕ} (α : ℚ) (a : ℕ) (s : BaneState n d) :
    (roundTrace α a s).2
      = BaneOp.estG :: BaneOp.rescQ :: List.replicate a BaneOp.ccdSweep := by
  unfold roundTrace
  simp only [updateBTrace_snd]

theorem loopTrace_fst {n d : ℕ} (α : ℚ) (a : ℕ) :
    ∀ (r : ℕ) (s : BaneState n d), (loopTrace α a r s).1 = optimizeLoop α a r s
  | 0, _ => rfl
  | r + 1, s => by
    show (loopTrace α a r (roundTrace α a s).1).1 = optimizeLoop α a r (roundStep α a s)
    rw [roundTrace_fst, loopTrace_fst α a r _]

theorem loopTrace_snd {n d : ℕ} (α : ℚ) (a : ℕ) :
    ∀ (r : ℕ) (s : BaneState n d),
      (loopTrace α a r s).2 = List.flatten (List.replicate r
        (BaneOp.estG :: BaneOp.rescQ :: List.replicate a BaneOp.ccdSweep))
  | 0, _ => rfl
  | r + 1, s => by
    show (roundTrace α a s).2 ++ (loopTrace α a r (roundTrace α a s).1).2 = _
    rw [roundTrace_snd, loopTrace_snd α a r _]
    rfl

theorem optimizeLoop_succ {n d : ℕ} (α : ℚ) (a : ℕ) :
    ∀ (r : ℕ) (s : BaneState n d),
      optimizeLoop α a (r + 1) s = roundStep α a (optimizeLoop α a r s)
  | 0, _ => rfl
  | r + 1, s => by
    show optimizeLoop α a (r + 1) (roundStep α a s) = _
    rw [optimizeLoop_succ α a r (roundStep α a s)]
    rfl

/-- C5: binary_optimize performs exactly `r` rounds, each consisting of one
`update_G`, one `update_Q` and one `update_B` with exactly `a` inner sweeps
(the instrumented run traces `r` copies of `[estG, rescQ, sweep × a]`), it
always performs one more full round when the round budget grows by one
regardless of the current state (no convergence check), and with zero rounds
it returns the freshly initialized `B` unchanged. -/
theorem bane_C5_round_count {n d : ℕ} (α : ℚ) (r a : ℕ) (R : Matrix (Fin n) (Fin d) ℚ)
    (s : BaneState n d) :
    (binaryOptimizeTrace α r a R s).1 = binaryOptimize α r a R s
    ∧ (binaryOptimizeTrace α r a R s).2
        = List.flatten (List.replicate r
            (BaneOp.estG :: BaneOp.rescQ :: List.replicate a BaneOp.ccdSweep))
    ∧ binaryOptimize α (r + 1) a R s = roundStep α a (binaryOptimize α r a R s)
    ∧ binaryOptimize α 0 a R s = { s with B := signMatrix R } :=
  ⟨loopTrace_fst α a r _, loopTrace_snd α a r _, optimizeLoop_succ α a r _, rfl⟩

theorem roundStep_eq_mk {n d : ℕ} (α : ℚ) (a : ℕ) (s : BaneState n d) :
    roundStep α a s =
      ⟨s.P,
       updateB (updateG s.B s.P α) (updateQ (updateG s.B s.P α) s.P) a s.B,
       updateG s.B s.P α,
       updateQ (updateG s.B s.P α) s.P⟩ := rfl

theorem roundStep_P {n d : ℕ} (α : ℚ) (a : ℕ) (s : BaneState n d) :
    (roundStep α a s).P = s.P := rfl

theorem optimizeLoop_P {n d : ℕ} (α : ℚ) (a : ℕ) :
    ∀ (r : ℕ) (s : BaneState n d), (optimizeLoop α a r s).P = s.P
  | 0, _ => rfl
  | r + 1, s =>
    (optimizeLoop_P α a r (roundStep α a s)).trans (roundStep_P α a s)

theorem roundStep_congr {n d : ℕ} (α : ℚ) (a : ℕ) {s₁ s₂ : BaneState n d}
    (hP : s₁.P = s₂.P) (hB : s₁.B = s₂.B) :
    roundStep α a s₁ = roundStep α a s₂ := by
  rw [roundStep_eq_mk α a s₁, roundStep_eq_mk α a s₂, hP, hB]

/-- C7: once the binary phase begins, `P` is never modified (per round, over
any run of the loop, and over a full binary_optimize call); `G` and `Q` are
fully overwritten every round, and `B` is the only carried state: two states
agreeing on `P` and `B` but differing arbitrarily in `G` and `Q` are
indistinguishable after one round, hence after any positive number of
rounds. -/
theorem bane_C7_state_frame {n d : ℕ} (α : ℚ) (a r : ℕ) (R : Matrix (Fin n) (Fin d) ℚ)
    (s₁ s₂ : BaneState n d) (hP : s₁.P = s₂.P) (hB : s₁.B = s₂.B) :
    (roundStep α a s₁).P = s₁.P
    ∧ (optimizeLoop α a r s₁).P = s₁.P
    ∧ (binaryOptimize α r a R s₁).P = s₁.P
    ∧ roundStep α a s₁ = roundStep α a s₂
    ∧ optimizeLoop α a (r + 1) s₁ = optimizeLoop α a (r + 1) s₂ := by
  refine ⟨roundStep_P α a s₁, optimizeLoop_P α a r s₁, optimizeLoop_P α a r _, ?_, ?_⟩
  · exact roundStep_congr α a hP hB
  · show optimizeLoop α a r (roundStep α a s₁) = optimizeLoop α a r (roundStep α a s₂)
    rw [roundStep_congr α a hP hB]

/-- Witness for C7: the frame conditions instantiated on two concrete states
that agree on `P` and `B` but differ in `G` and `Q`. -/
theorem bane_C7_state_frame_witness :
    (roundStep 1 1 frameS1).P = frameS1.P
    ∧ (optimizeLoop 1 1 2 frameS1).P = frameS1.P
    ∧ (binaryOptimize 1 2 1 cexR frameS1).P = frameS1.P
    ∧ roundStep 1 1 frameS1 = roundStep 1 1 frameS2
    ∧ optimizeLoop 1 1 3 frameS1 = optimizeLoop 1 1 3 frameS2 :=
  bane_C7_state_frame 1 1 2 cexR frameS1 frameS2 rfl rfl

theorem posSemidef_transpose_mul_self {n d : ℕ} (B : Matrix (Fin n) (Fin d) ℚ) :
    (Bᵀ * B).PosSemidef := by
  have h := Matrix.posSemidef_conjTranspose_mul_self B
  rwa [Matrix.conjTranspose_eq_transpose_of_trivial] at h

theorem posDef_smul_one {d : ℕ} {α : ℚ} (hα : 0 < α) :
    (α • (1 : Matrix (Fin d) (Fin d) ℚ)).PosDef := by
  rw [Matrix.smul_one_eq_diagonal]
  exact Matrix.PosDef.diagonal (fun _ => hα)

/-- C6: for every real matrix `B` and every `α > 0`, the matrix
`BᵀB + α·I` formed before inversion in update_G is positive definite, its
determinant is a unit (in particular nonzero), so the inversion step never
fails, regardless of the rank of `B`. -/
theorem bane_C6_gram_posdef {n d : ℕ} (B : Matrix (Fin n) (Fin d) ℚ) (α : ℚ)
    (hα : 0 < α) :
    (regularizedGram B α).PosDef
    ∧ (regularizedGram B α).det ≠ 0
    ∧ IsUnit (regularizedGram B α).det := by
  have hpd : (regularizedGram B α).PosDef :=
    Matrix.PosDef.posSemidef_add (posSemidef_transpose_mul_self B) (posDef_smul_one hα)
  have hdet : (regularizedGram B α).det ≠ 0 := by
    intro h0
    obtain ⟨v, hv, hMv⟩ := Matrix.exists_mulVec_eq_zero_iff.mpr h0
    have hpos := hpd.2 v hv
    rw [hMv, Matrix.dotProduct_zero] at hpos
    exact lt_irrefl 0 hpos
  exact ⟨hpd, hdet, isUnit_iff_ne_zero.mpr hdet⟩

/-- Witness for C6: the regularized Gram matrix of a concrete `B` and
`α = 1` is positive definite with nonzero determinant. -/
theorem bane_C6_gram_posdef_witness :
    (regularizedGram (1 : Matrix (Fin 1) (Fin 1) ℚ) 1).PosDef
    ∧ (regularizedGram (1 : Matrix (Fin 1) (Fin 1) ℚ) 1).det ≠ 0
    ∧ IsUnit (regularizedGram (1 : Matrix (Fin 1) (Fin 1) ℚ) 1).det :=
  bane_C6_gram_posdef 1 1 (by norm_num)

theorem powerLoop_eq {m : ℕ} (P : Matrix (Fin m) (Fin m) ℚ) :
    ∀ k, powerLoop P k = (P ^ (k + 1), k)
  | 0 => by
    show (P, 0) = (P ^ 1, 0)
    rw [pow_one]
  | k + 1 => by
    show ((powerLoop P k).1 * P, (powerLoop P k).2 + 1) = _
    rw [powerLoop_eq P k]
    show (P ^ (k + 1) * P, k + 1) = _
    rw [← pow_succ]

/-- C8: for `order ≥ 1`, the powering loop of read_graph returns the
`order`-th matrix power of the normalized propagator using exactly
`order - 1` matrix multiplications; for `order = 1` no multiplication is
performed and the input is returned unchanged. -/
theorem bane_C8_matrix_power {m : ℕ} (P : Matrix (Fin m) (Fin m) ℚ) (order : ℕ)
    (h : 1 ≤ order) :
    (readGraphPower P order).1 = P ^ order
    ∧ (readGraphPower P order).2 = order - 1
    ∧ readGraphPower P 1 = (P, 0) := by
  have h3 : readGraphPower P 1 = (P, 0) := rfl
  by_cases h1 : 1 < order
  · have hval : readGraphPower P order = (P ^ (order - 1 + 1), order - 1) := by
      unfold readGraphPower
      rw [if_pos h1, powerLoop_eq]
    have hsub : order - 1 + 1 = order := by omega
    rw [hval, hsub]
    exact ⟨rfl, rfl, h3⟩
  · have horder : order = 1 := by omega
    subst horder
    exact ⟨(pow_one P).symm, rfl, h3⟩

/-- Witness for C8: the powering contract at `order = 3` on a concrete 1×1
propagator. -/
theorem bane_C8_matrix_power_witness :
    (readGraphPower powP 3).1 = powP ^ 3
    ∧ (readGraphPower powP 3).2 = 3 - 1
    ∧ readGraphPower powP 1 = (powP, 0) :=
  bane_C8_matrix_power powP 3 (by norm_num)

/-- C9: the table written by save_embedding has `n` data rows; in increasing
row order, row `i` is the node id `i` (the 0-based row index) followed by the
`d` entries of row `i` of `B`, with no further index column; the header is
`id, x_0, …, x_{d-1}`. -/
theorem bane_C9_export_format {n d : ℕ} (B : Matrix (Fin n) (Fin d) ℚ) :
    (outRows B).length = n
    ∧ outRows B = (List.finRange n).map
        (fun i : Fin n => ((i : ℕ) : ℚ) :: (List.finRange d).map (fun j => B i j))
    ∧ (outHeader d).length = d + 1
    ∧ (outHeader d)[0]? = some "id"
    ∧ (∀ k, k < d → (outHeader d)[k + 1]? = some ("x_" ++ toString k)) := by
  have hrow : ∀ i : Fin n, (List.finRange (d + 1)).map (fun j => outMatrix B i j)
      = ((i : ℕ) : ℚ) :: (List.finRange d).map (fun j => B i j) := by
    intro i
    rw [List.finRange_succ_eq_map, List.map_cons, List.map_map]
    have h0 : outMatrix B i 0 = ((i : ℕ) : ℚ) := by simp [outMatrix]
    rw [h0]
    congr 1
  refine ⟨by simp [outRows], ?_, by simp [outHeader], by simp [outHeader], ?_⟩
  · exact List.map_congr_left (fun i _ => hrow i)
  · intro k hk
    simp [outHeader, List.getElem?_map, List.getElem?_range, hk]

/-- Witness for C9: the export format on a concrete 1×2 embedding. -/
theorem bane_C9_export_format_witness :
    (outHeader 2)[1 + 1]? = some ("x_" ++ toString 1)
    ∧ outRows cexB2 = (List.finRange 1).map
        (fun i : Fin 1 => ((i : ℕ) : ℚ) :: (List.finRange 2).map (fun j => cexB2 i j)) :=
  ⟨(bane_C9_export_format cexB2).2.2.2.2 1 (by norm_num),
   (bane_C9_export_format cexB2).2.1⟩

theorem le_foldr_max (l : List ℕ) : ∀ a ∈ l, a ≤ l.foldr max 0 := by
  induction l with
  | nil => intro a ha; simp at ha
  | cons x t ih =>
    intro a ha
    rcases List.mem_cons.mp ha with h | h
    · subst h; exact le_max_left _ _
    · exact le_trans (ih a h) (le_max_right _ _)

theorem featEntry_nil (i j : ℕ) : featEntry [] i j = 0 := rfl

theorem featEntry_cons (p : ℕ × List ℕ) (t : List (ℕ × List ℕ)) (i j : ℕ) :
    featEntry (p :: t) i j
      = (if p.1 = i then ((p.2.count j : ℕ) : ℚ) else 0) + featEntry t i j := by
  simp [featEntry]

theorem featEntry_not_mem :
    ∀ (fl : List (ℕ × List ℕ)) (i j : ℕ), i ∉ fl.map Prod.fst → featEntry fl i j = 0
  | [], _, _, _ => rfl
  | p :: t, i, j, h => by
    have h1 : p.1 ≠ i := by
      intro he
      exact h (List.mem_cons.mpr (Or.inl he.symm))
    have h2 : i ∉ t.map Prod.fst := fun hm => h (List.mem_cons_of_mem _ hm)
    rw [featEntry_cons, if_neg h1, featEntry_not_mem t i j h2, zero_add]

theorem featEntry_indicator :
    ∀ (fl : List (ℕ × List ℕ)) (i j : ℕ), (fl.map Prod.fst).Nodup →
      (∀ p ∈ fl, p.2.Nodup) →
      featEntry fl i j = if hasFeature fl i j then 1 else 0
  | [], i, j, _, _ => by
    rw [featEntry_nil, if_neg]
    rintro ⟨p, hp, _⟩
    exact absurd hp (List.not_mem_nil p)
  | p :: t, i, j, hkeys, hlists => by
    obtain ⟨hp1, ht⟩ := List.nodup_cons.mp (by rw [List.map_cons] at hkeys; exact hkeys)
    rw [featEntry_cons]
    by_cases hpi : p.1 = i
    · subst hpi
      rw [if_pos rfl, featEntry_not_mem t p.1 j hp1, add_zero]
      have hcount : p.2.count j = if j ∈ p.2 then 1 else 0 := by
        by_cases hj : j ∈ p.2
        · rw [if_pos hj]
          exact List.count_eq_one_of_mem (hlists p (List.mem_cons_self p t)) hj
        · rw [if_neg hj]
          exact List.count_eq_zero_of_not_mem hj
      have hhf : hasFeature (p :: t) p.1 j ↔ j ∈ p.2 := by
        constructor
        · rintro ⟨q, hq, hq1, hqj⟩
          rcases List.mem_cons.mp hq with h | h
          · rw [← h]; exact hqj
          · exact absurd (hq1 ▸ List.mem_map_of_mem Prod.fst h) hp1
        · intro hj
          exact ⟨p, List.mem_cons_self p t, rfl, hj⟩
      rw [hcount, if_congr hhf rfl rfl]
      split_ifs with hj <;> norm_num
    · rw [if_neg hpi, zero_add,
        featEntry_indicator t i j ht (fun q hq => hlists q (List.mem_cons_of_mem p hq))]
      have hhf : hasFeature (p :: t) i j ↔ hasFeature t i j := by
        constructor
        · rintro ⟨q, hq, hq1, hqj⟩
          rcases List.mem_cons.mp hq with h | h
          · exact absurd (h ▸ hq1) hpi
          · exact ⟨q, h, hq1, hqj⟩
        · rintro ⟨q, hq, hq1, hqj⟩
          exact ⟨q, List.mem_cons_of_mem p hq, hq1, hqj⟩
      rw [if_congr hhf rfl rfl]

/-- C10: for a well-formed sparse feature file (unique node keys, duplicate
free attribute lists, at least one listed attribute), entry `(i, j)` of the
matrix built by read_sparse_features is 1 exactly when attribute `j` is
listed for node `i` and 0 exactly when it is not; any node id absent from the
file contributes an all-zero row; and every listed node id and attribute id
lies within the matrix shape `nodeCount × featureCount` (max id + 1 each). -/
theorem bane_C10_sparse_features (fl : List (ℕ × List ℕ))
    (hkeys : (fl.map Prod.fst).Nodup) (hlists : ∀ p ∈ fl, p.2.Nodup)
    (hne : (fl.map Prod.snd).flatten ≠ []) :
    (∀ i j, featEntry fl i j = 1 ↔ hasFeature fl i j)
    ∧ (∀ i j, featEntry fl i j = 0 ↔ ¬ hasFeature fl i j)
    ∧ (∀ i j, i ∉ fl.map Prod.fst → featEntry fl i j = 0)
    ∧ (∀ p ∈ fl, p.1 < nodeCount fl ∧ ∀ a ∈ p.2, a < featureCount fl) := by
  refine ⟨?_, ?_, fun i j h => featEntry_not_mem fl i j h, ?_⟩
  · intro i j
    rw [featEntry_indicator fl i j hkeys hlists]
    split_ifs with h <;> norm_num [h]
  · intro i j
    rw [featEntry_indicator fl i j hkeys hlists]
    split_ifs with h <;> norm_num [h]
  · intro p hp
    constructor
    · have hle := le_foldr_max (fl.map Prod.fst) p.1 (List.mem_map_of_mem Prod.fst hp)
      unfold nodeCount
      omega
    · intro a ha
      have hmem : a ∈ (fl.map Prod.snd).flatten :=
        List.mem_flatten.mpr ⟨p.2, List.mem_map_of_mem Prod.snd hp, ha⟩
      have hle := le_foldr_max _ a hmem
      unfold featureCount
      omega

/-- Witness for C10: the sparse feature matrix semantics on a concrete file
with an absent middle node id. -/
theorem bane_C10_sparse_features_witness :
    (∀ i j, featEntry featFl i j = 1 ↔ hasFeature featFl i j)
    ∧ (∀ i j, featEntry featFl i j = 0 ↔ ¬ hasFeature featFl i j)
    ∧ (∀ i j, i ∉ featFl.map Prod.fst → featEntry featFl i j = 0)
    ∧ (∀ p ∈ featFl, p.1 < nodeCount featFl ∧ ∀ a ∈ p.2, a < featureCount featFl) :=
  bane_C10_sparse_features featFl (by decide) (by decide) (by decide)

end BaneModel
